import Mathlib

/-!
Verification of the binary Merkle commitment scheme in `src/fri/merkle.py`
(class `MerkleTree`).

Modelling conventions:
* Raw data elements and digests are byte sequences, modelled as `List Nat`.
* The hash primitive (`blake2b` in the source) is an opaque external
  collaborator; every operation is parametrised by an arbitrary
  `H : Bytes → Digest`.  Python `MerkleTree.H(x).digest()` becomes `H x`,
  and `bytes(da)` (serialization of an element that is already a byte
  string) is the identity.
* Fallible code returns `Except MError _`.  A failing `assert` becomes
  `.error .assertFail`; an out-of-range subscript (`path[0]` on an empty
  list) becomes `.error .indexError`.
* `commit_` is the one function of the source whose recursion can diverge
  (on the empty sequence both recursive calls receive the empty sequence
  again), so it is embedded with explicit fuel; `.error .outOfFuel` marks
  fuel exhaustion.  `commit_ H leafs` runs the fuelled recursion with fuel
  `leafs.length`, which is proved sufficient for every input on which the
  Python recursion terminates.  `open_` and `verify_` genuinely terminate
  on all inputs and are embedded by well-founded recursion.
* Indices are `Nat`; the Python assertions `0 <= index` hold trivially.
-/

/-- Byte sequences (raw data elements and hash inputs). -/
abbrev Bytes := List Nat

/-- Digests: byte sequences produced by the hash primitive. -/
abbrev Digest := List Nat

/-- Failure modes of the embedded code: `assertFail` models a Python
`AssertionError`, `indexError` models an `IndexError` from an out-of-range
subscript, and `outOfFuel` marks exhaustion of the recursion fuel (the
Python original recurses without reaching a base case there). -/
inductive MError where
  | assertFail
  | indexError
  | outOfFuel
  deriving DecidableEq

/-- The guard `len(leafs) & (len(leafs)-1) == 0` from the source.  Python
computes `0 - 1 = -1` and `0 & -1 = 0`; Lean's truncated subtraction gives
`0 - 1 = 0` and `0 &&& 0 = 0`, so the guard accepts `0` in both languages
and otherwise accepts exactly the powers of two. -/
def pow2guard (n : Nat) : Bool := n &&& (n - 1) == 0

namespace MerkleTree

/-- `MerkleTree.commit_` with explicit recursion fuel.  Mirrors

```
assert(len(leafs) & (len(leafs)-1) == 0), "length must be power of two"
if len(leafs) == 1:
    return leafs[0]
else:
    return H(commit_(leafs[:len(leafs)//2]) + commit_(leafs[len(leafs)//2:])).digest()
```

The left recursive call is evaluated first; its error propagates before the
right call runs, matching Python's evaluation order. -/
def commitFuel (H : Bytes → Digest) : Nat → List Digest → Except MError Digest
  | 0, _ => .error .outOfFuel
  | fuel + 1, leafs =>
    if pow2guard leafs.length then
      if leafs.length = 1 then
        .ok (leafs.getD 0 [])
      else
        match commitFuel H fuel (leafs.take (leafs.length / 2)) with
        | .error e => .error e
        | .ok l =>
          match commitFuel H fuel (leafs.drop (leafs.length / 2)) with
          | .error e => .error e
          | .ok r => .ok (H (l ++ r))
    else .error .assertFail

/-- `MerkleTree.commit_`: the fuelled recursion run with fuel
`leafs.length`, which suffices whenever the Python recursion terminates
(the recursion depth is at most `log2 (length) + 1 ≤ length` for positive
power-of-two lengths). -/
def commit_ (H : Bytes → Digest) (leafs : List Digest) : Except MError Digest :=
  commitFuel H leafs.length leafs

/-- `MerkleTree.open_`.  Mirrors

```
assert(len(leafs) & (len(leafs)-1) == 0), "length must be power of two"
assert(0 <= index and index < len(leafs)), "cannot open invalid index"
if len(leafs) == 2:
    return [leafs[1 - index]]
elif index < (len(leafs)/2):
    return open_(index, leafs[:len(leafs)//2]) + [commit_(leafs[len(leafs)//2:])]
else:
    return open_(index - len(leafs)//2, leafs[len(leafs)//2:]) + [commit_(leafs[:len(leafs)//2])]
```

Python's `index < (len(leafs)/2)` is true division, so it is rendered as
`2 * index < leafs.length` (equivalent for integer `index`, including the
odd-length case `len(leafs) == 1`). -/
def open_ (H : Bytes → Digest) (index : Nat) (leafs : List Digest) :
    Except MError (List Digest) :=
  if pow2guard leafs.length then
    if hidx : index < leafs.length then
      if leafs.length = 2 then
        .ok [leafs.getD (1 - index) []]
      else if hhalf : 2 * index < leafs.length then
        match open_ H index (leafs.take (leafs.length / 2)) with
        | .error e => .error e
        | .ok p =>
          match commit_ H (leafs.drop (leafs.length / 2)) with
          | .error e => .error e
          | .ok c => .ok (p ++ [c])
      else
        match open_ H (index - leafs.length / 2) (leafs.drop (leafs.length / 2)) with
        | .error e => .error e
        | .ok p =>
          match commit_ H (leafs.take (leafs.length / 2)) with
          | .error e => .error e
          | .ok c => .ok (p ++ [c])
    else .error .assertFail
  else .error .assertFail
termination_by leafs.length
decreasing_by
  · simp only [List.length_take]
    omega
  · simp only [List.length_drop]
    omega

/-- `MerkleTree.verify_`.  Mirrors

```
assert(0 <= index and index < (1 << len(path))), "cannot verify invalid index"
if len(path) == 1:
    if index == 0:
        return root == H(leaf + path[0]).digest()
    else:
        return root == H(path[0] + leaf).digest()
else:
    if index % 2 == 0:
        return verify_(root, index >> 1, path[1:], H(leaf + path[0]).digest())
    else:
        return verify_(root, index >> 1, path[1:], H(path[0] + leaf).digest())
```

When `path` is empty the `else` branch evaluates `path[0]`, which raises an
`IndexError` before any recursion, embedded as `.error .indexError`. -/
def verify_ (H : Bytes → Digest) (root : Digest) (index : Nat) (path : List Digest)
    (leaf : Digest) : Except MError Bool :=
  if index < 1 <<< path.length then
    if path.length = 1 then
      if index = 0 then
        .ok (root == H (leaf ++ path.getD 0 []))
      else
        .ok (root == H (path.getD 0 [] ++ leaf))
    else
      match path with
      | [] => .error .indexError
      | p0 :: rest =>
        if index % 2 = 0 then
          verify_ H root (index >>> 1) rest (H (leaf ++ p0))
        else
          verify_ H root (index >>> 1) rest (H (p0 ++ leaf))
  else .error .assertFail
termination_by path.length
decreasing_by
  · simp
  · simp

/-- `MerkleTree.commit`: hash every element's serialized bytes, then fold.
Mirrors `commit_([H(bytes(da)).digest() for da in data_array])`. -/
def commit (H : Bytes → Digest) (dataArray : List Bytes) : Except MError Digest :=
  commit_ H (dataArray.map (fun da => H da))

/-- `MerkleTree.open` (named `open'` because `open` is a Lean keyword).
Mirrors `open_(index, [H(bytes(da)).digest() for da in data_array])`. -/
def open' (H : Bytes → Digest) (index : Nat) (dataArray : List Bytes) :
    Except MError (List Digest) :=
  open_ H index (dataArray.map (fun da => H da))

/-- `MerkleTree.verify`.  Mirrors
`verify_(root, index, path, H(bytes(data_element)).digest())`. -/
def verify (H : Bytes → Digest) (root : Digest) (index : Nat) (path : List Digest)
    (dataElement : Bytes) : Except MError Bool :=
  verify_ H root index path (H dataElement)

end MerkleTree

/-- A concrete stand-in hash used to instantiate witnesses and
counterexamples: prepend a tag byte value.  (It is injective, though no
result below relies on that.) -/
def Hc : Bytes → Digest := fun b => 257 :: b

/-! ### The power-of-two guard -/

/-- The guard accepts every power of two. -/
theorem pow2guard_two_pow (k : Nat) : pow2guard (2 ^ k) = true := by
  simp [pow2guard, Nat.and_pow_two_sub_one_eq_mod]

/-- The guard also accepts `0`: in Python `0 & (0 - 1) == 0 & -1 == 0`. -/
theorem pow2guard_zero : pow2guard 0 = true := by decide

/-- Bitwise fact: `(2m+1) & (2m) = 2m`, so the guard rejects odd numbers
above `1`. -/
theorem and_odd_pred (m : Nat) : (2 * m + 1) &&& (2 * m) = 2 * m := by
  apply Nat.eq_of_testBit_eq
  intro i
  cases i with
  | zero =>
    simp [Nat.testBit_and, Nat.testBit_zero, Nat.mul_mod_right]
  | succ j =>
    have h1 : (2 * m + 1) / 2 = m := by omega
    have h2 : (2 * m) / 2 = m := by omega
    rw [Nat.testBit_and]
    simp only [Nat.testBit_add_one, h1, h2, Bool.and_self]

/-- Bitwise fact: `(2m) & (2m - 1) = 2 * (m & (m-1))` for `m ≥ 1`: the guard
value of an even number is that of its half. -/
theorem and_even_pred (m : Nat) (hm : 1 ≤ m) :
    (2 * m) &&& (2 * m - 1) = 2 * (m &&& (m - 1)) := by
  apply Nat.eq_of_testBit_eq
  intro i
  cases i with
  | zero =>
    simp [Nat.testBit_and, Nat.testBit_zero, Nat.mul_mod_right]
  | succ j =>
    have h1 : (2 * m) / 2 = m := by omega
    have h2 : (2 * m - 1) / 2 = m - 1 := by omega
    have h3 : (2 * (m &&& (m - 1))) / 2 = m &&& (m - 1) := by omega
    rw [Nat.testBit_and]
    simp only [Nat.testBit_add_one, h1, h2, h3]
    rw [Nat.testBit_and]

/-- A number `≥ 2` accepted by the guard is even, and its half is again
accepted. -/
theorem pow2guard_step (n : Nat) (h2 : 2 ≤ n) (hg : pow2guard n = true) :
    n % 2 = 0 ∧ pow2guard (n / 2) = true := by
  rcases Nat.even_or_odd n with he | ho
  · obtain ⟨m, hm⟩ := he
    have hm' : n = 2 * m := by omega
    have hm1 : 1 ≤ m := by omega
    subst hm'
    rw [pow2guard, beq_iff_eq, and_even_pred m hm1] at hg
    have hand : m &&& (m - 1) = 0 := by omega
    refine ⟨by omega, ?_⟩
    have hdiv : 2 * m / 2 = m := by omega
    rw [hdiv, pow2guard, beq_iff_eq, hand]
  · obtain ⟨m, hm⟩ := ho
    subst hm
    have hm1 : 1 ≤ m := by omega
    rw [pow2guard, beq_iff_eq] at hg
    have hsub : 2 * m + 1 - 1 = 2 * m := by omega
    rw [hsub, and_odd_pred] at hg
    omega

/-- Characterization of the guard on positive inputs: it accepts exactly
the powers of two. -/
theorem pow2guard_pos_iff (n : Nat) (hn : 0 < n) :
    pow2guard n = true ↔ ∃ k, n = 2 ^ k := by
  constructor
  · intro hg
    induction n using Nat.strong_induction_on with
    | _ n ih =>
      rcases Nat.lt_or_ge n 2 with hlt | hge
      · exact ⟨0, by omega⟩
      · obtain ⟨heven, hg2⟩ := pow2guard_step n hge hg
        have hlt2 : n / 2 < n := by omega
        have hpos2 : 0 < n / 2 := by omega
        obtain ⟨k, hk⟩ := ih (n / 2) hlt2 hpos2 hg2
        exact ⟨k + 1, by rw [pow_succ]; omega⟩
  · rintro ⟨k, rfl⟩
    exact pow2guard_two_pow k

/-! ### Basic behaviour of `commit_` -/

namespace MerkleTree

/-- On the empty sequence every amount of fuel is exhausted: the Python
recursion `commit_([])` passes the guard and calls itself on two empty
halves forever. -/
theorem commitFuel_nil (H : Bytes → Digest) (f : Nat) :
    commitFuel H f [] = .error .outOfFuel := by
  induction f with
  | zero => rfl
  | succ f ih => simp [commitFuel, ih, pow2guard_zero]

/-- One unfolding of the fuelled recursion in the splitting case. -/
theorem commitFuel_succ (H : Bytes → Digest) (f : Nat) (L : List Digest)
    (hg : pow2guard L.length = true) (h1 : L.length ≠ 1) :
    commitFuel H (f + 1) L =
      match commitFuel H f (L.take (L.length / 2)) with
      | .error e => .error e
      | .ok l =>
        match commitFuel H f (L.drop (L.length / 2)) with
        | .error e => .error e
        | .ok r => .ok (H (l ++ r)) := by
  simp [commitFuel, hg, h1]

/-- Any fuel at least `2 ^ k` computes the same result as fuel `2 ^ k` on a
sequence of length `2 ^ k`: the recursion depth is bounded, so `commit_`
terminates on positive power-of-two lengths. -/
theorem commitFuel_fix (H : Bytes → Digest) :
    ∀ (k : Nat) (L : List Digest) (f : Nat),
      L.length = 2 ^ k → 2 ^ k ≤ f → commitFuel H f L = commitFuel H (2 ^ k) L := by
  intro k
  induction k with
  | zero =>
    intro L f hL hf
    obtain ⟨d, rfl⟩ := List.length_eq_one.mp hL
    obtain ⟨f', rfl⟩ : ∃ f', f = f' + 1 := ⟨f - 1, by omega⟩
    simp [commitFuel]
  | succ k ih =>
    intro L f hL hf
    have hps : 2 ^ (k + 1) = 2 ^ k * 2 := pow_succ 2 k
    have hpos : 0 < 2 ^ k := Nat.two_pow_pos k
    obtain ⟨f', rfl⟩ : ∃ f', f = f' + 1 := ⟨f - 1, by omega⟩
    have hg : pow2guard L.length = true := by rw [hL]; exact pow2guard_two_pow _
    have h1 : L.length ≠ 1 := by rw [hL]; omega
    have htk : (L.take (L.length / 2)).length = 2 ^ k := by
      simp [List.length_take, hL]; omega
    have hdr : (L.drop (L.length / 2)).length = 2 ^ k := by
      simp [List.length_drop, hL]; omega
    have hsplit : 2 ^ (k + 1) = (2 ^ (k + 1) - 1) + 1 := by omega
    rw [hsplit, commitFuel_succ H f' L hg h1,
      commitFuel_succ H (2 ^ (k + 1) - 1) L hg h1]
    have e1 : commitFuel H f' (L.take (L.length / 2)) =
        commitFuel H (2 ^ k) (L.take (L.length / 2)) := ih _ f' htk (by omega)
    have e2 : commitFuel H f' (L.drop (L.length / 2)) =
        commitFuel H (2 ^ k) (L.drop (L.length / 2)) := ih _ f' hdr (by omega)
    have e3 : commitFuel H (2 ^ (k + 1) - 1) (L.take (L.length / 2)) =
        commitFuel H (2 ^ k) (L.take (L.length / 2)) := ih _ _ htk (by omega)
    have e4 : commitFuel H (2 ^ (k + 1) - 1) (L.drop (L.length / 2)) =
        commitFuel H (2 ^ k) (L.drop (L.length / 2)) := ih _ _ hdr (by omega)
    simp only [e1, e2, e3, e4]

/-- A singleton commits to its unique element, with no hashing. -/
theorem commit_single (H : Bytes → Digest) (d : Digest) :
    commit_ H [d] = .ok d := by
  simp [commit_, commitFuel, pow2guard]

/-- One unfolding of `commit_` on a sequence of length `2 ^ (k+1)`: split at
the midpoint, commit both halves (left first), hash the concatenation. -/
theorem commit_step (H : Bytes → Digest) (k : Nat) (L : List Digest)
    (hL : L.length = 2 ^ (k + 1)) :
    commit_ H L =
      match commit_ H (L.take (L.length / 2)) with
      | .error e => .error e
      | .ok l =>
        match commit_ H (L.drop (L.length / 2)) with
        | .error e => .error e
        | .ok r => .ok (H (l ++ r)) := by
  have hps : 2 ^ (k + 1) = 2 ^ k * 2 := pow_succ 2 k
  have hpos : 0 < 2 ^ k := Nat.two_pow_pos k
  have hg : pow2guard L.length = true := by rw [hL]; exact pow2guard_two_pow _
  have h1 : L.length ≠ 1 := by rw [hL]; omega
  have htk : (L.take (L.length / 2)).length = 2 ^ k := by
    simp [List.length_take, hL]; omega
  have hdr : (L.drop (L.length / 2)).length = 2 ^ k := by
    simp [List.length_drop, hL]; omega
  have hsplit : 2 ^ (k + 1) = (2 ^ (k + 1) - 1) + 1 := by omega
  show commitFuel H L.length L = _
  conv_lhs => rw [hL, hsplit]
  rw [commitFuel_succ H (2 ^ (k + 1) - 1) L hg h1]
  have e3 : commitFuel H (2 ^ (k + 1) - 1) (L.take (L.length / 2)) =
      commitFuel H (2 ^ k) (L.take (L.length / 2)) :=
    commitFuel_fix H k _ _ htk (by omega)
  have e4 : commitFuel H (2 ^ (k + 1) - 1) (L.drop (L.length / 2)) =
      commitFuel H (2 ^ k) (L.drop (L.length / 2)) :=
    commitFuel_fix H k _ _ hdr (by omega)
  have u1 : commit_ H (L.take (L.length / 2)) =
      commitFuel H (2 ^ k) (L.take (L.length / 2)) := by
    simp only [commit_, htk]
  have u2 : commit_ H (L.drop (L.length / 2)) =
      commitFuel H (2 ^ k) (L.drop (L.length / 2)) := by
    simp only [commit_, hdr]
  simp only [e3, e4, u1, u2]

/-- `commit_` succeeds on every sequence of power-of-two length. -/
theorem commit_pow (H : Bytes → Digest) :
    ∀ (k : Nat) (L : List Digest), L.length = 2 ^ k →
      ∃ r, commit_ H L = .ok r := by
  intro k
  induction k with
  | zero =>
    intro L hL
    obtain ⟨d, rfl⟩ := List.length_eq_one.mp hL
    exact ⟨d, commit_single H d⟩
  | succ k ih =>
    intro L hL
    have hps : 2 ^ (k + 1) = 2 ^ k * 2 := pow_succ 2 k
    have hpos : 0 < 2 ^ k := Nat.two_pow_pos k
    have htk : (L.take (L.length / 2)).length = 2 ^ k := by
      simp [List.length_take, hL]; omega
    have hdr : (L.drop (L.length / 2)).length = 2 ^ k := by
      simp [List.length_drop, hL]; omega
    obtain ⟨l, hl⟩ := ih _ htk
    obtain ⟨r, hr⟩ := ih _ hdr
    refine ⟨H (l ++ r), ?_⟩
    rw [commit_step H k L hL]
    simp only [hl, hr]

/-- The split of `commit_` with both halves known to succeed. -/
theorem commit_parts (H : Bytes → Digest) (k : Nat) (L : List Digest)
    (hL : L.length = 2 ^ (k + 1)) :
    ∃ l r, commit_ H (L.take (L.length / 2)) = .ok l ∧
      commit_ H (L.drop (L.length / 2)) = .ok r ∧
      commit_ H L = .ok (H (l ++ r)) := by
  have hps : 2 ^ (k + 1) = 2 ^ k * 2 := pow_succ 2 k
  have hpos : 0 < 2 ^ k := Nat.two_pow_pos k
  have htk : (L.take (L.length / 2)).length = 2 ^ k := by
    simp [List.length_take, hL]; omega
  have hdr : (L.drop (L.length / 2)).length = 2 ^ k := by
    simp [List.length_drop, hL]; omega
  obtain ⟨l, hl⟩ := commit_pow H k _ htk
  obtain ⟨r, hr⟩ := commit_pow H k _ hdr
  refine ⟨l, r, hl, hr, ?_⟩
  rw [commit_step H k L hL]
  simp only [hl, hr]

end MerkleTree

/-! ### Basic behaviour of `open_` -/

namespace MerkleTree

/-- Opening the empty sequence fails: the guard accepts length `0`, but the
index assertion `index < 0` cannot hold. -/
theorem open_nil (H : Bytes → Digest) (i : Nat) :
    open_ H i [] = .error .assertFail := by
  unfold open_
  simp [pow2guard_zero]

/-- Opening a singleton fails for every index: index `0` passes both
assertions but recurses into the empty left half, whose index assertion
fails; any other index fails the index assertion directly. -/
theorem open_single (H : Bytes → Digest) (i : Nat) (d : Digest) :
    open_ H i [d] = .error .assertFail := by
  unfold open_
  rcases Nat.lt_or_ge i 1 with h1 | h1
  · have hi : i = 0 := by omega
    subst hi
    simp [pow2guard, open_nil]
  · have h2 : ¬ i < 1 := by omega
    simp [pow2guard, h2]

/-- Base case: a two-element sequence opens to the sibling entry. -/
theorem open_two (H : Bytes → Digest) (L : List Digest) (i : Nat)
    (hL : L.length = 2) (hi : i < 2) :
    open_ H i L = .ok [L.getD (1 - i) []] := by
  unfold open_
  simp [hL, hi, show pow2guard 2 = true from by decide]

/-- Unfolding of `open_` when the index falls in the left half. -/
theorem open_step_left (H : Bytes → Digest) (L : List Digest) (i : Nat)
    (hg : pow2guard L.length = true) (hne2 : L.length ≠ 2)
    (hhalf : 2 * i < L.length) :
    open_ H i L =
      match open_ H i (L.take (L.length / 2)) with
      | .error e => .error e
      | .ok p =>
        match commit_ H (L.drop (L.length / 2)) with
        | .error e => .error e
        | .ok c => .ok (p ++ [c]) := by
  have hidx : i < L.length := by omega
  conv_lhs => rw [open_.eq_def]
  rw [if_pos hg, dif_pos hidx, if_neg hne2, dif_pos hhalf]

/-- Unfolding of `open_` when the index falls in the right half. -/
theorem open_step_right (H : Bytes → Digest) (L : List Digest) (i : Nat)
    (hg : pow2guard L.length = true) (hidx : i < L.length)
    (hne2 : L.length ≠ 2) (hhalf : ¬ 2 * i < L.length) :
    open_ H i L =
      match open_ H (i - L.length / 2) (L.drop (L.length / 2)) with
      | .error e => .error e
      | .ok p =>
        match commit_ H (L.take (L.length / 2)) with
        | .error e => .error e
        | .ok c => .ok (p ++ [c]) := by
  conv_lhs => rw [open_.eq_def]
  rw [if_pos hg, dif_pos hidx, if_neg hne2, dif_neg hhalf]

/-- `open_` succeeds on power-of-two lengths `≥ 2` with a valid index, and
the path has exactly `log2 (length)` entries. -/
theorem open_pow (H : Bytes → Digest) :
    ∀ (k : Nat) (L : List Digest) (i : Nat), L.length = 2 ^ (k + 1) →
      i < L.length → ∃ p, open_ H i L = .ok p ∧ p.length = k + 1 := by
  intro k
  induction k with
  | zero =>
    intro L i hL hi
    have h2 : L.length = 2 := by simpa using hL
    exact ⟨[L.getD (1 - i) []], open_two H L i h2 (by omega), rfl⟩
  | succ k ih =>
    intro L i hL hi
    have hps : 2 ^ (k + 2) = 2 ^ (k + 1) * 2 := pow_succ 2 (k + 1)
    have hps2 : 2 ^ (k + 1) = 2 ^ k * 2 := pow_succ 2 k
    have hpos : 0 < 2 ^ k := Nat.two_pow_pos k
    have hg : pow2guard L.length = true := by rw [hL]; exact pow2guard_two_pow _
    have hne2 : L.length ≠ 2 := by rw [hL]; omega
    have htk : (L.take (L.length / 2)).length = 2 ^ (k + 1) := by
      simp [List.length_take, hL]; omega
    have hdr : (L.drop (L.length / 2)).length = 2 ^ (k + 1) := by
      simp [List.length_drop, hL]; omega
    have hdiv : L.length / 2 = 2 ^ (k + 1) := by rw [hL]; omega
    by_cases hhalf : 2 * i < L.length
    · obtain ⟨p, hp, hplen⟩ := ih (L.take (L.length / 2)) i htk (by omega)
      obtain ⟨c, hc⟩ := commit_pow H (k + 1) _ hdr
      refine ⟨p ++ [c], ?_, by simp [hplen]⟩
      rw [open_step_left H L i hg hne2 hhalf]
      simp only [hp, hc]
    · obtain ⟨p, hp, hplen⟩ := ih (L.drop (L.length / 2)) (i - L.length / 2) hdr
        (by omega)
      obtain ⟨c, hc⟩ := commit_pow H (k + 1) _ htk
      refine ⟨p ++ [c], ?_, by simp [hplen]⟩
      rw [open_step_right H L i hg hi hne2 hhalf]
      simp only [hp, hc]

end MerkleTree

/-! ### Basic behaviour of `verify_` -/

namespace MerkleTree

/-- With an empty path and index `0` the assertion passes, and the code
then reads `path[0]`, raising an index error: the leaf digest is never
compared to the root. -/
theorem verify_nil_zero (H : Bytes → Digest) (r leaf : Digest) :
    verify_ H r 0 [] leaf = .error .indexError := by
  unfold verify_
  simp

/-- With an empty path and a positive index the assertion `index < 1`
fails. -/
theorem verify_nil_pos (H : Bytes → Digest) (r leaf : Digest) (i : Nat)
    (hi : 1 ≤ i) :
    verify_ H r i [] leaf = .error .assertFail := by
  unfold verify_
  have h : ¬ i < 1 <<< ([] : List Digest).length := by
    simp; omega
  simp [h]
  omega

/-- Base case of the fold: one path entry left, compare to the root with
the concatenation order decided by `index == 0`. -/
theorem verify_one (H : Bytes → Digest) (r : Digest) (i : Nat) (p0 leaf : Digest)
    (hi : i < 2) :
    verify_ H r i [p0] leaf =
      .ok (r == if i = 0 then H (leaf ++ p0) else H (p0 ++ leaf)) := by
  unfold verify_
  have h1 : i < 1 <<< ([p0] : List Digest).length := by simpa using hi
  by_cases h0 : i = 0
  · subst h0
    simp [h1]
  · simp [h1, h0, hi]

/-- Recursive case of the fold: consume the head entry, hash on the side
given by the parity of the index, shift the index right by one bit. -/
theorem verify_cons (H : Bytes → Digest) (root : Digest) (i : Nat)
    (p0 r0 : Digest) (rest : List Digest) (leaf : Digest)
    (hi : i < 1 <<< (p0 :: r0 :: rest).length) :
    verify_ H root i (p0 :: r0 :: rest) leaf =
      verify_ H root (i >>> 1) (r0 :: rest)
        (if i % 2 = 0 then H (leaf ++ p0) else H (p0 ++ leaf)) := by
  conv_lhs => rw [verify_.eq_def]
  rw [if_pos hi]
  have hne : ¬ (p0 :: r0 :: rest).length = 1 := by simp
  rw [if_neg hne]
  by_cases h : i % 2 = 0
  · simp [h]
  · simp [h]

/-- Appending one sibling digest to a path that folds to `sub` yields a
path folding to `H (sub ++ c)` or `H (c ++ sub)` according to the top bit
of the index. -/
theorem verify_snoc (H : Bytes → Digest) :
    ∀ (p : List Digest) (i : Nat) (root sub c leaf : Digest),
      i < 2 ^ (p.length + 1) →
      verify_ H sub (i % 2 ^ p.length) p leaf = .ok true →
      verify_ H root i (p ++ [c]) leaf =
        .ok (root == if 2 ^ p.length ≤ i then H (c ++ sub) else H (sub ++ c)) := by
  intro p
  induction p with
  | nil =>
    intro i root sub c leaf hi hsub
    simp only [List.length_nil, pow_zero, Nat.mod_one] at hsub
    rw [verify_nil_zero] at hsub
    simp at hsub
  | cons p0 ps ih =>
    intro i root sub c leaf hi hsub
    cases ps with
    | nil =>
      have him : i % 2 ^ ([p0] : List Digest).length < 2 := by
        simpa using Nat.mod_lt i (by omega : 0 < 2)
      rw [verify_one H sub _ p0 leaf him] at hsub
      have h1 : (sub == if i % 2 ^ ([p0] : List Digest).length = 0
          then H (leaf ++ p0) else H (p0 ++ leaf)) = true := by
        injection hsub
      have hsubeq : sub = if i % 2 = 0 then H (leaf ++ p0) else H (p0 ++ leaf) := by
        have := (beq_iff_eq).mp h1
        simpa using this
      have hi4 : i < 4 := by simpa using hi
      have e1 : verify_ H root i ([p0] ++ [c]) leaf =
          verify_ H root (i >>> 1) [c] sub := by
        rw [show ([p0] ++ [c] : List Digest) = p0 :: c :: [] from rfl]
        rw [verify_cons H root i p0 c [] leaf (by simpa using hi4), ← hsubeq]
      rw [e1, Nat.shiftRight_one, verify_one H root (i / 2) c sub (by omega)]
      by_cases h2 : 2 ≤ i
      · have hne : ¬ i / 2 = 0 := by omega
        simp [hne, h2]
      · have heq : i / 2 = 0 := by omega
        simp [heq, h2]
    | cons r0 rest =>
      have hlen : (p0 :: r0 :: rest).length = (r0 :: rest).length + 1 := rfl
      have him : i % 2 ^ (p0 :: r0 :: rest).length <
          1 <<< (p0 :: r0 :: rest).length := by
        rw [Nat.one_shiftLeft]
        exact Nat.mod_lt i (Nat.two_pow_pos _)
      rw [verify_cons H sub _ p0 r0 rest leaf him] at hsub
      have e2 : i % 2 ^ ((r0 :: rest).length + 1) % 2 = i % 2 :=
        Nat.mod_mod_of_dvd i (dvd_pow_self 2 (Nat.succ_ne_zero _))
      have e3 : (i % 2 ^ ((r0 :: rest).length + 1)) >>> 1 =
          (i / 2) % 2 ^ (r0 :: rest).length := by
        rw [Nat.shiftRight_one, pow_succ']
        exact Nat.mod_mul_right_div_self i 2 _
      rw [hlen, e2, e3] at hsub
      have hp2 : 2 ^ ((r0 :: rest).length + 1 + 1) =
          2 ^ ((r0 :: rest).length + 1) * 2 := pow_succ 2 _
      have hi' : i / 2 < 2 ^ ((r0 :: rest).length + 1) := by
        have : i < 2 ^ ((r0 :: rest).length + 1 + 1) := by simpa using hi
        omega
      have happ := ih (i / 2) root sub c
        (if i % 2 = 0 then H (leaf ++ p0) else H (p0 ++ leaf)) hi' hsub
      simp only [List.cons_append] at happ ⊢
      have hi'' : i < 1 <<< (p0 :: r0 :: (rest ++ [c])).length := by
        rw [Nat.one_shiftLeft]
        simpa using hi
      rw [verify_cons H root i p0 r0 (rest ++ [c]) leaf hi'', Nat.shiftRight_one,
        happ]
      have hp3 : 2 ^ (rest.length + 1 + 1) = 2 ^ (rest.length + 1) * 2 :=
        pow_succ 2 _
      by_cases hc : 2 ^ ((r0 :: rest).length) ≤ i / 2
      · have hc2 : 2 ^ (rest.length + 1) ≤ i / 2 := by simpa using hc
        have hc' : 2 ^ (rest.length + 1 + 1) ≤ i := by omega
        simp [hc2, hc']
      · have hc2 : ¬ 2 ^ (rest.length + 1) ≤ i / 2 := by simpa using hc
        have hc' : ¬ 2 ^ (rest.length + 1 + 1) ≤ i := by omega
        simp [hc2, hc']

end MerkleTree

/-! ### Indexing helpers and the round trip -/

/-- Indexing inside the taken prefix. -/
theorem getD_take (L : List Digest) (m i : Nat) (h : i < m) :
    (L.take m).getD i [] = L.getD i [] := by
  simp [List.getD_eq_getElem?_getD, List.getElem?_take_of_lt h]

/-- Indexing inside the dropped suffix. -/
theorem getD_drop (L : List Digest) (m j : Nat) :
    (L.drop m).getD j [] = L.getD (m + j) [] := by
  simp [List.getD_eq_getElem?_getD, List.getElem?_drop]

/-- Indexing a mapped list at a valid index. -/
theorem getD_map (f : Bytes → Digest) (E : List Bytes) (i : Nat)
    (h : i < E.length) :
    (E.map f).getD i [] = f (E.getD i []) := by
  simp [List.getD_eq_getElem?_getD, List.getElem?_map,
    List.getElem?_eq_getElem h]

namespace MerkleTree

/-- Round trip over leaf digests: for a power-of-two length `≥ 2` and a
valid index, `commit_` and `open_` succeed and `verify_` accepts the
resulting root, path and leaf digest. -/
theorem roundtrip (H : Bytes → Digest) :
    ∀ (k : Nat) (L : List Digest) (i : Nat), L.length = 2 ^ (k + 1) →
      i < L.length →
      ∃ r p, commit_ H L = .ok r ∧ open_ H i L = .ok p ∧ p.length = k + 1 ∧
        verify_ H r i p (L.getD i []) = .ok true := by
  intro k
  induction k with
  | zero =>
    intro L i hL hi
    have h2 : L.length = 2 := by simpa using hL
    obtain ⟨a, b, rfl⟩ := List.length_eq_two.mp h2
    have hi2 : i < 2 := by omega
    have hc : commit_ H [a, b] = .ok (H (a ++ b)) := by
      rw [commit_step H 0 [a, b] (by norm_num)]
      simp [commit_single]
    have ho : open_ H i [a, b] = .ok [[a, b].getD (1 - i) []] :=
      open_two H _ i rfl hi2
    refine ⟨H (a ++ b), _, hc, ho, rfl, ?_⟩
    rw [verify_one H (H (a ++ b)) i _ _ hi2]
    interval_cases i
    · simp
    · simp
  | succ k ih =>
    intro L i hL hi
    have hps : 2 ^ (k + 2) = 2 ^ (k + 1) * 2 := pow_succ 2 (k + 1)
    have hps2 : 2 ^ (k + 1) = 2 ^ k * 2 := pow_succ 2 k
    have hposk : 0 < 2 ^ k := Nat.two_pow_pos k
    have hpos : 0 < 2 ^ (k + 1) := Nat.two_pow_pos _
    have hg : pow2guard L.length = true := by rw [hL]; exact pow2guard_two_pow _
    have hne2 : L.length ≠ 2 := by rw [hL]; omega
    have htk : (L.take (L.length / 2)).length = 2 ^ (k + 1) := by
      simp [List.length_take, hL]; omega
    have hdr : (L.drop (L.length / 2)).length = 2 ^ (k + 1) := by
      simp [List.length_drop, hL]; omega
    have hdiv : L.length / 2 = 2 ^ (k + 1) := by rw [hL]; omega
    obtain ⟨l, r, hcl, hcr, hcL⟩ := commit_parts H (k + 1) L hL
    by_cases hhalf : 2 * i < L.length
    · have hi2 : i < (L.take (L.length / 2)).length := by omega
      obtain ⟨rt, p, hct, hot, hpl, hvt⟩ := ih (L.take (L.length / 2)) i htk hi2
      have hrt : rt = l := Except.ok.inj (hct.symm.trans hcl)
      rw [hrt] at hvt
      have hoL : open_ H i L = .ok (p ++ [r]) := by
        rw [open_step_left H L i hg hne2 hhalf]
        simp only [hot, hcr]
      have hleaf : (L.take (L.length / 2)).getD i [] = L.getD i [] :=
        getD_take L _ i (by omega)
      rw [hleaf] at hvt
      refine ⟨H (l ++ r), p ++ [r], hcL, hoL, by simp [hpl], ?_⟩
      have hmod : i % 2 ^ p.length = i := by
        rw [hpl]
        exact Nat.mod_eq_of_lt (by omega)
      have hsnoc := verify_snoc H p i (H (l ++ r)) l r (L.getD i [])
        (by rw [hpl]; omega) (by rw [hmod]; exact hvt)
      rw [hsnoc]
      have hnle : ¬ 2 ^ p.length ≤ i := by rw [hpl]; omega
      simp [hnle]
    · have hge2 : 2 ^ (k + 1) ≤ i := by omega
      have hi2 : i - L.length / 2 < (L.drop (L.length / 2)).length := by omega
      obtain ⟨rt, p, hct, hot, hpl, hvt⟩ :=
        ih (L.drop (L.length / 2)) (i - L.length / 2) hdr hi2
      have hrt : rt = r := Except.ok.inj (hct.symm.trans hcr)
      rw [hrt] at hvt
      have hoL : open_ H i L = .ok (p ++ [l]) := by
        rw [open_step_right H L i hg hi hne2 hhalf]
        simp only [hot, hcl]
      have hleaf : (L.drop (L.length / 2)).getD (i - L.length / 2) [] =
          L.getD i [] := by
        rw [getD_drop]
        congr 1
        omega
      rw [hleaf] at hvt
      refine ⟨H (l ++ r), p ++ [l], hcL, hoL, by simp [hpl], ?_⟩
      have hmod : i % 2 ^ p.length = i - L.length / 2 := by
        rw [hpl, hdiv, Nat.mod_eq_sub_mod hge2, Nat.mod_eq_of_lt (by omega)]
      have hsnoc := verify_snoc H p i (H (l ++ r)) r l (L.getD i [])
        (by rw [hpl]; omega) (by rw [hmod]; exact hvt)
      rw [hsnoc]
      have hle : 2 ^ p.length ≤ i := by rw [hpl]; exact hge2
      simp [hle]

end MerkleTree

/-! ### Failure and totality helpers -/

namespace MerkleTree

/-- `open_` rejects any sequence whose length fails the guard. -/
theorem open_guard_fail (H : Bytes → Digest) (i : Nat) (L : List Digest)
    (h : pow2guard L.length = false) :
    open_ H i L = .error .assertFail := by
  rw [open_.eq_def]
  rw [if_neg (by simp [h])]

/-- `open_` rejects any out-of-range index before recursing. -/
theorem open_index_fail (H : Bytes → Digest) (i : Nat) (L : List Digest)
    (h : L.length ≤ i) :
    open_ H i L = .error .assertFail := by
  rw [open_.eq_def]
  by_cases hg : pow2guard L.length = true
  · rw [if_pos hg, dif_neg (by omega)]
  · rw [if_neg hg]

/-- `commit_` rejects any non-empty sequence whose length fails the
guard. -/
theorem commit_guard_fail (H : Bytes → Digest) (L : List Digest)
    (hpos : 0 < L.length) (h : pow2guard L.length = false) :
    commit_ H L = .error .assertFail := by
  obtain ⟨m, hm⟩ : ∃ m, L.length = m + 1 := ⟨L.length - 1, by omega⟩
  show commitFuel H L.length L = _
  conv_lhs => rw [hm]
  simp [commitFuel, h]

/-- `verify_` rejects any index not representable in `len(path)` bits
before folding. -/
theorem verify_index_fail (H : Bytes → Digest) (root : Digest) (i : Nat)
    (p : List Digest) (leaf : Digest) (h : 1 <<< p.length ≤ i) :
    verify_ H root i p leaf = .error .assertFail := by
  rw [verify_.eq_def]
  rw [if_neg (by omega)]

/-- Every `open_` call either returns a path or fails an assertion: the
recursion is well-founded and its internal `commit_` calls never exhaust
their fuel. -/
theorem open_total (H : Bytes → Digest) (i : Nat) (L : List Digest) :
    (∃ p, open_ H i L = .ok p) ∨ open_ H i L = .error .assertFail := by
  by_cases hg : pow2guard L.length = true
  · by_cases hidx : i < L.length
    · have hpos : 0 < L.length := by omega
      obtain ⟨k, hk⟩ := (pow2guard_pos_iff _ hpos).mp hg
      cases k with
      | zero =>
        obtain ⟨d, rfl⟩ := List.length_eq_one.mp (by simpa using hk)
        exact Or.inr (open_single H i d)
      | succ k =>
        obtain ⟨p, hp, -⟩ := open_pow H k L i hk hidx
        exact Or.inl ⟨p, hp⟩
    · exact Or.inr (open_index_fail H i L (by omega))
  · exact Or.inr (open_guard_fail H i L (by simpa using hg))

/-- `verify_` terminates on every input without any fuel: its result is
never the fuel-exhaustion marker. -/
theorem verify_no_fuel (H : Bytes → Digest) (root : Digest) :
    ∀ (p : List Digest) (i : Nat) (leaf : Digest),
      verify_ H root i p leaf ≠ .error .outOfFuel := by
  intro p
  induction p with
  | nil =>
    intro i leaf
    by_cases h0 : i = 0
    · subst h0
      rw [verify_nil_zero]
      simp
    · rw [verify_nil_pos H root leaf i (by omega)]
      simp
  | cons p0 ps ih =>
    intro i leaf
    cases ps with
    | nil =>
      by_cases hi : i < 2
      · rw [verify_one H root i p0 leaf hi]
        simp
      · rw [verify_index_fail H root i [p0] leaf (by simpa using hi)]
        simp
    | cons r0 rest =>
      by_cases hi : i < 1 <<< (p0 :: r0 :: rest).length
      · rw [verify_cons H root i p0 r0 rest leaf hi]
        exact ih _ _
      · rw [verify_index_fail H root i (p0 :: r0 :: rest) leaf (by omega)]
        simp

end MerkleTree

/-! ### Claim theorems -/

/-- C1 (amended): for every element sequence `E` of power-of-two length
`2 ^ (k+1)` (that is, length at least `2`) and every valid index `i`,
`verify (commit E) i (open i E) E[i]` succeeds and returns `true`.  (The
original claim also covered length `1`, where `open` fails an assertion;
see the counterexample.) -/
theorem claim1_roundtrip (H : Bytes → Digest) (E : List Bytes) (k i : Nat)
    (hlen : E.length = 2 ^ (k + 1)) (hi : i < E.length) :
    ∃ r p, MerkleTree.commit H E = .ok r ∧ MerkleTree.open' H i E = .ok p ∧
      MerkleTree.verify H r i p (E.getD i []) = .ok true := by
  have hmap : (E.map (fun da => H da)).length = 2 ^ (k + 1) := by
    simpa using hlen
  obtain ⟨r, p, hc, ho, -, hv⟩ :=
    MerkleTree.roundtrip H k (E.map (fun da => H da)) i hmap (by simpa using hi)
  refine ⟨r, p, hc, ho, ?_⟩
  have hm : (E.map (fun da => H da)).getD i [] = H (E.getD i []) := by
    simpa using getD_map (fun da => H da) E i hi
  show MerkleTree.verify_ H r i p (H (E.getD i [])) = .ok true
  rw [← hm]
  exact hv

/-- C1 witness: a concrete two-element round trip. -/
theorem claim1_roundtrip_witness :
    ∃ r p, MerkleTree.commit Hc [[1], [2]] = .ok r ∧
      MerkleTree.open' Hc 0 [[1], [2]] = .ok p ∧
      MerkleTree.verify Hc r 0 p (([[1], [2]] : List Bytes).getD 0 []) = .ok true :=
  claim1_roundtrip Hc [[1], [2]] 0 0 (by decide) (by decide)

/-- C1 counterexample: for the single-element sequence `[b"a"]` and index
`0` the round trip does not return `true`, because `open` already fails
its index assertion in the recursive call on the empty left half. -/
theorem claim1_cex :
    ¬ ∃ r p, MerkleTree.commit Hc [[97]] = .ok r ∧
      MerkleTree.open' Hc 0 [[97]] = .ok p ∧
      MerkleTree.verify Hc r 0 p [97] = .ok true := by
  rintro ⟨r, p, -, ho, -⟩
  have hfail : MerkleTree.open' Hc 0 [[97]] = .error .assertFail := by
    unfold MerkleTree.open'
    simp only [List.map_cons, List.map_nil]
    exact MerkleTree.open_single Hc 0 _
  rw [hfail] at ho
  simp at ho

/-- C2 (amended): for every single-element sequence `E`, `open 0 E` fails
with a precondition (assertion) error — the recursion has no length-1 base
case and trips the index assertion on the empty left half — rather than
returning an empty path. -/
theorem claim2_open_single_fails (H : Bytes → Digest) (e : Bytes) :
    MerkleTree.open' H 0 [e] = .error .assertFail := by
  unfold MerkleTree.open'
  simp only [List.map_cons, List.map_nil]
  exact MerkleTree.open_single H 0 _

/-- C2 counterexample: `open 0 [b"a"]` does not return the empty path. -/
theorem claim2_cex : MerkleTree.open' Hc 0 [[97]] ≠ .ok [] := by
  have hfail : MerkleTree.open' Hc 0 [[97]] = .error .assertFail := by
    unfold MerkleTree.open'
    simp only [List.map_cons, List.map_nil]
    exact MerkleTree.open_single Hc 0 _
  simp [hfail]

/-- C3 (amended): `verify` with an empty path and index `0` fails with an
index error — the code reads `path[0]` of the empty path — instead of
comparing the leaf digest to the root.  (With an empty path and a positive
index the assertion `index < 1` fails instead.) -/
theorem claim3_verify_empty_fails (H : Bytes → Digest) (r : Digest) (e : Bytes) :
    MerkleTree.verify H r 0 [] e = .error .indexError :=
  MerkleTree.verify_nil_zero H r (H e)

/-- C3 counterexample: at a concrete root and element, `verify` with the
empty path fails and in particular does not return the root comparison. -/
theorem claim3_cex :
    MerkleTree.verify Hc [0] 0 [] [1] = .error .indexError ∧
      MerkleTree.verify Hc [0] 0 [] [1] ≠ .ok (([0] : Digest) == Hc [1]) := by
  have h : MerkleTree.verify Hc [0] 0 [] [1] = .error .indexError :=
    MerkleTree.verify_nil_zero Hc [0] (Hc [1])
  exact ⟨h, by simp [h]⟩

/-- C4: the power-of-two guard does reject every *positive* non-power
length at the call boundary, but the claim fails for the empty sequence:
`0 & (0-1) == 0` holds, so the guard accepts length `0`; `open_` still
rejects it through the index assertion, while `commit_` starts recursing
and never reaches a base case (fuel exhaustion for every fuel, a stack
overflow in Python) — the empty sequence is not rejected by a precondition
error at the boundary.  This contradicts the assertion's own message
`"length must be power of two"`, so it is recorded as a code bug. -/
theorem claim4_zero_guard_bug :
    pow2guard 0 = true ∧
    (∀ (H : Bytes → Digest) (f : Nat),
      MerkleTree.commitFuel H f [] = .error .outOfFuel) ∧
    (∀ (H : Bytes → Digest) (i : Nat),
      MerkleTree.open_ H i [] = .error .assertFail) ∧
    (∀ (H : Bytes → Digest) (L : List Digest), 0 < L.length →
      (∀ k, L.length ≠ 2 ^ k) →
      MerkleTree.commit_ H L = .error .assertFail ∧
      ∀ i, MerkleTree.open_ H i L = .error .assertFail) := by
  refine ⟨pow2guard_zero, MerkleTree.commitFuel_nil, MerkleTree.open_nil, ?_⟩
  intro H L hpos hnp
  have hg : pow2guard L.length = false := by
    by_contra h
    obtain ⟨k, hk⟩ := (pow2guard_pos_iff L.length hpos).mp (by simpa using h)
    exact hnp k hk
  exact ⟨MerkleTree.commit_guard_fail H L hpos hg,
    fun i => MerkleTree.open_guard_fail H i L hg⟩

/-- C4 witness: a length-3 sequence is rejected by `commit_`. -/
theorem claim4_zero_guard_bug_witness :
    MerkleTree.commit_ Hc [[5], [6], [7]] = .error .assertFail :=
  (claim4_zero_guard_bug.2.2.2 Hc [[5], [6], [7]] (by decide) (by
    intro k
    cases k with
    | zero => decide
    | succ k =>
      cases k with
      | zero => decide
      | succ k =>
        have h4 : 4 ≤ 2 ^ (k + 2) := by
          calc 4 = 2 ^ 2 := by norm_num
          _ ≤ 2 ^ (k + 2) := Nat.pow_le_pow_right (by norm_num) (by omega)
        simp
        omega)).1

/-- C5: `commit_` returns a singleton's element unchanged, and on length
`2 ^ (k+1)` splits at the midpoint and hashes the concatenation of the two
child digests, left then right. -/
theorem claim5_commit_structure (H : Bytes → Digest) :
    (∀ d : Digest, MerkleTree.commit_ H [d] = .ok d) ∧
    (∀ (k : Nat) (L : List Digest), L.length = 2 ^ (k + 1) →
      ∃ l r, MerkleTree.commit_ H (L.take (L.length / 2)) = .ok l ∧
        MerkleTree.commit_ H (L.drop (L.length / 2)) = .ok r ∧
        MerkleTree.commit_ H L = .ok (H (l ++ r))) :=
  ⟨fun d => MerkleTree.commit_single H d,
    fun k L hL => MerkleTree.commit_parts H k L hL⟩

/-- C5 witness: the split on a concrete two-element digest sequence. -/
theorem claim5_commit_structure_witness :
    ∃ l r, MerkleTree.commit_ Hc [[1]] = .ok l ∧
      MerkleTree.commit_ Hc [[2]] = .ok r ∧
      MerkleTree.commit_ Hc [[1], [2]] = .ok (Hc (l ++ r)) := by
  simpa using (claim5_commit_structure Hc).2 0 [[1], [2]] (by decide)

/-- C6: `open_` on length `2` returns the sibling entry; on length
`2 ^ (k+2) ≥ 4` it recurses into the half containing the index and appends
the commit digest of the other half as the final entry. -/
theorem claim6_open_structure (H : Bytes → Digest) :
    (∀ (L : List Digest) (i : Nat), L.length = 2 → i < 2 →
      MerkleTree.open_ H i L = .ok [L.getD (1 - i) []]) ∧
    (∀ (k : Nat) (L : List Digest) (i : Nat), L.length = 2 ^ (k + 2) →
      2 * i < L.length →
      ∃ p c, MerkleTree.open_ H i (L.take (L.length / 2)) = .ok p ∧
        MerkleTree.commit_ H (L.drop (L.length / 2)) = .ok c ∧
        MerkleTree.open_ H i L = .ok (p ++ [c])) ∧
    (∀ (k : Nat) (L : List Digest) (i : Nat), L.length = 2 ^ (k + 2) →
      i < L.length → L.length ≤ 2 * i →
      ∃ p c, MerkleTree.open_ H (i - L.length / 2) (L.drop (L.length / 2)) = .ok p ∧
        MerkleTree.commit_ H (L.take (L.length / 2)) = .ok c ∧
        MerkleTree.open_ H i L = .ok (p ++ [c])) := by
  refine ⟨fun L i hL hi => MerkleTree.open_two H L i hL hi, ?_, ?_⟩
  · intro k L i hL hhalf
    have hps : 2 ^ (k + 2) = 2 ^ (k + 1) * 2 := pow_succ 2 (k + 1)
    have hps2 : 2 ^ (k + 1) = 2 ^ k * 2 := pow_succ 2 k
    have hposk : 0 < 2 ^ k := Nat.two_pow_pos k
    have hg : pow2guard L.length = true := by
      rw [hL]; exact pow2guard_two_pow _
    have hne2 : L.length ≠ 2 := by rw [hL]; omega
    have htk : (L.take (L.length / 2)).length = 2 ^ (k + 1) := by
      simp [List.length_take, hL]; omega
    have hdr : (L.drop (L.length / 2)).length = 2 ^ (k + 1) := by
      simp [List.length_drop, hL]; omega
    obtain ⟨p, hp, -⟩ :=
      MerkleTree.open_pow H k (L.take (L.length / 2)) i htk (by omega)
    obtain ⟨c, hc⟩ := MerkleTree.commit_pow H (k + 1) _ hdr
    refine ⟨p, c, hp, hc, ?_⟩
    rw [MerkleTree.open_step_left H L i hg hne2 hhalf]
    simp only [hp, hc]
  · intro k L i hL hi hhalf
    have hps : 2 ^ (k + 2) = 2 ^ (k + 1) * 2 := pow_succ 2 (k + 1)
    have hps2 : 2 ^ (k + 1) = 2 ^ k * 2 := pow_succ 2 k
    have hposk : 0 < 2 ^ k := Nat.two_pow_pos k
    have hg : pow2guard L.length = true := by
      rw [hL]; exact pow2guard_two_pow _
    have hne2 : L.length ≠ 2 := by rw [hL]; omega
    have htk : (L.take (L.length / 2)).length = 2 ^ (k + 1) := by
      simp [List.length_take, hL]; omega
    have hdr : (L.drop (L.length / 2)).length = 2 ^ (k + 1) := by
      simp [List.length_drop, hL]; omega
    have hdiv : L.length / 2 = 2 ^ (k + 1) := by rw [hL]; omega
    obtain ⟨p, hp, -⟩ := MerkleTree.open_pow H k (L.drop (L.length / 2))
      (i - L.length / 2) hdr (by omega)
    obtain ⟨c, hc⟩ := MerkleTree.commit_pow H (k + 1) _ htk
    refine ⟨p, c, hp, hc, ?_⟩
    rw [MerkleTree.open_step_right H L i hg hi hne2 (by omega)]
    simp only [hp, hc]

/-- C6 witness: the left-half case on a concrete four-element sequence. -/
theorem claim6_open_structure_witness :
    ∃ p c, MerkleTree.open_ Hc 0 [[1], [2]] = .ok p ∧
      MerkleTree.commit_ Hc [[3], [4]] = .ok c ∧
      MerkleTree.open_ Hc 0 [[1], [2], [3], [4]] = .ok (p ++ [c]) := by
  simpa using (claim6_open_structure Hc).2.1 0 [[1], [2], [3], [4]] 0
    (by decide) (by decide)

/-- C7: `verify_` folds the path by index parity — even index hashes
`leaf ++ path[0]`, odd index hashes `path[0] ++ leaf`; with one entry left
the recomputed digest is compared to the root, and in the recursive case
the index is shifted right one bit and the consumed entry dropped. -/
theorem claim7_verify_fold (H : Bytes → Digest) :
    (∀ (root : Digest) (i : Nat) (p0 leaf : Digest), i < 2 →
      MerkleTree.verify_ H root i [p0] leaf =
        .ok (root == if i % 2 = 0 then H (leaf ++ p0) else H (p0 ++ leaf))) ∧
    (∀ (root : Digest) (i : Nat) (p0 r0 : Digest) (rest : List Digest)
      (leaf : Digest), i < 2 ^ (p0 :: r0 :: rest).length →
      MerkleTree.verify_ H root i (p0 :: r0 :: rest) leaf =
        MerkleTree.verify_ H root (i >>> 1) (r0 :: rest)
          (if i % 2 = 0 then H (leaf ++ p0) else H (p0 ++ leaf))) := by
  constructor
  · intro root i p0 leaf hi
    by_cases h : i = 0
    · subst h
      rw [MerkleTree.verify_one H root 0 p0 leaf (by omega)]
    · have h1 : i = 1 := by omega
      subst h1
      rw [MerkleTree.verify_one H root 1 p0 leaf (by omega)]
  · intro root i p0 r0 rest leaf hi
    exact MerkleTree.verify_cons H root i p0 r0 rest leaf
      (by rw [Nat.one_shiftLeft]; exact hi)

/-- C7 witness: the base case at a concrete even index. -/
theorem claim7_verify_fold_witness :
    MerkleTree.verify_ Hc [0] 0 [[1]] [2] =
      .ok (([0] : Digest) == if 0 % 2 = 0 then Hc ([2] ++ [1]) else Hc ([1] ++ [2])) :=
  (claim7_verify_fold Hc).1 [0] 0 [1] [2] (by decide)

/-- C8: `open_` with an index at or above the sequence length, and
`verify_` with an index at or above `2 ^ len(path)`, fail their
assertions before any recursion or folding. -/
theorem claim8_index_assertions (H : Bytes → Digest) :
    (∀ (i : Nat) (L : List Digest), L.length ≤ i →
      MerkleTree.open_ H i L = .error .assertFail) ∧
    (∀ (root : Digest) (i : Nat) (p : List Digest) (leaf : Digest),
      2 ^ p.length ≤ i →
      MerkleTree.verify_ H root i p leaf = .error .assertFail) := by
  refine ⟨fun i L h => MerkleTree.open_index_fail H i L h, ?_⟩
  intro root i p leaf h
  exact MerkleTree.verify_index_fail H root i p leaf
    (by rw [Nat.one_shiftLeft]; exact h)

/-- C8 witness: concrete out-of-range indices are rejected. -/
theorem claim8_index_assertions_witness :
    MerkleTree.open_ Hc 5 [[1], [2]] = .error .assertFail ∧
      MerkleTree.verify_ Hc [0] 4 [[1], [2]] [3] = .error .assertFail :=
  ⟨(claim8_index_assertions Hc).1 5 [[1], [2]] (by decide),
    (claim8_index_assertions Hc).2 [0] 4 [[1], [2]] [3] (by decide)⟩

/-- C9 (amended): for every element sequence of length `2 ^ (k+1)` (at
least `2`) and valid index, the returned path has length exactly
`log2 (length)`.  (The original claim also covered length `1`, where
`open` fails and returns no path; see the counterexample.) -/
theorem claim9_path_length (H : Bytes → Digest) (E : List Bytes) (k i : Nat)
    (hlen : E.length = 2 ^ (k + 1)) (hi : i < E.length) :
    ∃ p, MerkleTree.open' H i E = .ok p ∧ p.length = Nat.log2 E.length := by
  have hmap : (E.map (fun da => H da)).length = 2 ^ (k + 1) := by
    simpa using hlen
  obtain ⟨p, hp, hpl⟩ :=
    MerkleTree.open_pow H k (E.map (fun da => H da)) i hmap (by simpa using hi)
  refine ⟨p, hp, ?_⟩
  rw [hpl, hlen, Nat.log2_two_pow]

/-- C9 witness: a concrete length-2 sequence yields a length-1 path. -/
theorem claim9_path_length_witness :
    ∃ p, MerkleTree.open' Hc 1 [[1], [2]] = .ok p ∧
      p.length = Nat.log2 ([[1], [2]] : List Bytes).length :=
  claim9_path_length Hc [[1], [2]] 0 1 (by decide) (by decide)

/-- C9 counterexample: on the single-element sequence `open` returns no
path at all, so no path of length `log2 1 = 0` is produced. -/
theorem claim9_cex :
    ¬ ∃ p, MerkleTree.open' Hc 0 [[97]] = .ok p ∧
      p.length = Nat.log2 ([[97]] : List Bytes).length := by
  rintro ⟨p, hp, -⟩
  have hfail : MerkleTree.open' Hc 0 [[97]] = .error .assertFail := by
    unfold MerkleTree.open'
    simp only [List.map_cons, List.map_nil]
    exact MerkleTree.open_single Hc 0 _
  rw [hfail] at hp
  simp at hp

/-- C10: `commit_` terminates (its result is fuel-independent and
successful) on every non-empty power-of-two length; `open_` always
returns a path or an assertion failure, never exhausting the fuel of its
embedded `commit_` calls; `verify_` terminates on every input; but the
guard `len & (len-1) == 0` also accepts length `0`, and on the empty
sequence `commit_` exhausts every amount of fuel — its recursion never
reaches a base case. -/
theorem claim10_termination :
    (∀ (H : Bytes → Digest) (k : Nat) (L : List Digest) (f : Nat),
      L.length = 2 ^ k → L.length ≤ f →
      MerkleTree.commitFuel H f L = MerkleTree.commit_ H L ∧
      ∃ r, MerkleTree.commit_ H L = .ok r) ∧
    (∀ (H : Bytes → Digest) (i : Nat) (L : List Digest),
      (∃ p, MerkleTree.open_ H i L = .ok p) ∨
        MerkleTree.open_ H i L = .error .assertFail) ∧
    (∀ (H : Bytes → Digest) (root : Digest) (p : List Digest) (i : Nat)
      (leaf : Digest), MerkleTree.verify_ H root i p leaf ≠ .error .outOfFuel) ∧
    pow2guard 0 = true ∧
    (∀ (H : Bytes → Digest) (f : Nat),
      MerkleTree.commitFuel H f [] = .error .outOfFuel) := by
  refine ⟨?_, MerkleTree.open_total, fun H root p i leaf =>
    MerkleTree.verify_no_fuel H root p i leaf, pow2guard_zero,
    MerkleTree.commitFuel_nil⟩
  intro H k L f hL hf
  have hcf : MerkleTree.commit_ H L = MerkleTree.commitFuel H (2 ^ k) L := by
    simp only [MerkleTree.commit_, hL]
  constructor
  · rw [hcf, MerkleTree.commitFuel_fix H k L f hL (by omega)]
  · exact MerkleTree.commit_pow H k L hL

/-- C10 witness: fuel-independence and success at a concrete input. -/
theorem claim10_termination_witness :
    MerkleTree.commitFuel Hc 7 [[1], [2]] = MerkleTree.commit_ Hc [[1], [2]] ∧
      ∃ r, MerkleTree.commit_ Hc [[1], [2]] = .ok r :=
  claim10_termination.1 Hc 1 [[1], [2]] 7 (by decide) (by decide)
